import Mathlib

/-!
Shallow embedding of the `cardano-c` interface (src/cardano-c/cardano.h).

The repository ships only the C header: declarations together with their
documentation comments.  The function bodies live outside the repository
snapshot, so every operation below is modelled from the header's doc
comments and the accompanying specification, as indicated by the
`Modelled from the spec:` doc strings.
-/

deriving instance DecidableEq for Except

namespace Cardano

/-! ### Big-endian digit strings

The BIP39 codec packs entropy bytes plus checksum bits into 11-bit groups.
Bytes read most-significant-bit first concatenated into a bit string are the
base-256 big-endian digits of one natural number, and the 11-bit groups are
its base-2048 big-endian digits, so we model the bit-level packing with a
generic fixed-width big-endian digit expansion. -/

/-- Fixed-width big-endian digit expansion of `n` in base `b`. -/
def digitsBE (b : Nat) : Nat → Nat → List Nat
  | 0, _ => []
  | w + 1, n => digitsBE b w (n / b) ++ [n % b]

/-- Value of a big-endian digit string in base `b`. -/
def ofDigitsBE (b : Nat) (ds : List Nat) : Nat :=
  ds.foldl (fun a d => a * b + d) 0

theorem digitsBE_length (b w n : Nat) : (digitsBE b w n).length = w := by
  induction w generalizing n with
  | zero => rfl
  | succ w ih => simp [digitsBE, ih]

theorem digitsBE_lt (b w n : Nat) (hb : 0 < b) :
    ∀ d ∈ digitsBE b w n, d < b := by
  induction w generalizing n with
  | zero => intro d hd; simp [digitsBE] at hd
  | succ w ih =>
    intro d hd
    simp only [digitsBE, List.mem_append, List.mem_singleton] at hd
    rcases hd with hd | hd
    · exact ih (n / b) d hd
    · subst hd; exact Nat.mod_lt _ hb

theorem ofDigitsBE_concat (b : Nat) (ds : List Nat) (d : Nat) :
    ofDigitsBE b (ds ++ [d]) = ofDigitsBE b ds * b + d := by
  simp [ofDigitsBE, List.foldl_append]

theorem ofDigitsBE_digitsBE (b w n : Nat) :
    ofDigitsBE b (digitsBE b w n) = n % b ^ w := by
  induction w generalizing n with
  | zero => simp [digitsBE, ofDigitsBE, Nat.mod_one]
  | succ w ih =>
    rw [digitsBE, ofDigitsBE_concat, ih]
    have hpow : b ^ (w + 1) = b * b ^ w := by
      rw [pow_succ, Nat.mul_comm]
    rw [hpow, Nat.mod_mul, Nat.mul_comm (n / b % b ^ w) b]
    omega

theorem digitsBE_ofDigitsBE (b : Nat) (hb : 0 < b) (ds : List Nat)
    (hd : ∀ d ∈ ds, d < b) :
    digitsBE b ds.length (ofDigitsBE b ds) = ds := by
  induction ds using List.reverseRecOn with
  | nil => rfl
  | append_singleton ds d ih =>
    have hdlt : d < b := hd d (by simp)
    have hds : ∀ x ∈ ds, x < b := fun x hx => hd x (by simp [hx])
    rw [List.length_append, List.length_singleton, ofDigitsBE_concat, digitsBE]
    have hmod : (ofDigitsBE b ds * b + d) % b = d := by
      rw [Nat.mul_comm (ofDigitsBE b ds) b, Nat.mul_add_mod]
      exact Nat.mod_eq_of_lt hdlt
    have hdiv : (ofDigitsBE b ds * b + d) / b = ofDigitsBE b ds := by
      rw [Nat.mul_comm (ofDigitsBE b ds) b, Nat.mul_add_div hb]
      simp [Nat.div_eq_of_lt hdlt]
    rw [hmod, hdiv, ih hds]

theorem ofDigitsBE_lt (b : Nat) (ds : List Nat)
    (hd : ∀ d ∈ ds, d < b) :
    ofDigitsBE b ds < b ^ ds.length := by
  induction ds using List.reverseRecOn with
  | nil => simp [ofDigitsBE]
  | append_singleton ds d ih =>
    have hdlt : d < b := hd d (by simp)
    have hds : ∀ x ∈ ds, x < b := fun x hx => hd x (by simp [hx])
    rw [List.length_append, List.length_singleton, ofDigitsBE_concat, pow_succ]
    have h1 : ofDigitsBE b ds + 1 ≤ b ^ ds.length := ih hds
    calc ofDigitsBE b ds * b + d < (ofDigitsBE b ds + 1) * b := by
          rw [Nat.add_mul, Nat.one_mul]; omega
      _ ≤ b ^ ds.length * b := Nat.mul_le_mul_right b h1

/-! ### BIP39 entropy / mnemonic codec -/

/-- Error codes of the BIP39 interface (`cardano_bip39_error_t`). -/
inductive Bip39Error where
  | invalidMnemonic
  | invalidChecksum
  | invalidWordCount
  deriving DecidableEq, Repr

/-- Legal entropy byte lengths (header: 16, 20, 24, 28 or 32 bytes). -/
def legalEntropySizes : List Nat := [16, 20, 24, 28, 32]

/-- Legal mnemonic word counts (header: 9, 12, 15, 18, 21 or 24 words;
9 is the explicitly supported legacy alias). -/
def legalWordCounts : List Nat := [9, 12, 15, 18, 21, 24]

/-- Modelled from the spec: the checksum appended to the entropy bits is the
first `entropy_bits / 32` bits of a hash of the entropy.  The hash itself
(SHA-256 in BIP39) is absent from src/, so it enters as the parameter
`hash`; only its determinism matters to the codec. -/
def checksumVal (hash : List Nat → Nat) (e : List Nat) : Nat :=
  hash e % 2 ^ (e.length / 4)

/-- Number of mnemonic words encoding entropy of `L` bytes:
`(8·L + 8·L/32) / 11`. -/
def wordCountOfEntropy (L : Nat) : Nat := (8 * L + L / 4) / 11

/-- Number of entropy bytes recovered from a mnemonic of `W` words:
of the `11·W` bits, `W/3` are checksum and the rest entropy. -/
def entropyBytesOfWordCount (W : Nat) : Nat := (11 * W - W / 3) / 8

/-- Modelled from the spec: `cardano_bip39_encode` /
`mnemonic_from_entropy`.  The entropy bits followed by the checksum bits
are split into 11-bit groups, i.e. the base-2048 big-endian digits of
`entropy_value · 2^cs + checksum`. -/
def mnemonicFromEntropy (hash : List Nat → Nat) (e : List Nat) : List Nat :=
  digitsBE 2048 (wordCountOfEntropy e.length)
    (ofDigitsBE 256 e * 2 ^ (e.length / 4) + checksumVal hash e)

/-- Modelled from the spec: `cardano_entropy_from_english_mnemonics`.
Validates the word count and dictionary indices (`InvalidMnemonic`
otherwise), recovers the entropy bytes, and verifies the embedded checksum
(`InvalidChecksum` on mismatch). -/
def entropyFromMnemonic (hash : List Nat → Nat) (ws : List Nat) :
    Except Bip39Error (List Nat) :=
  if ws.length ∈ legalWordCounts ∧ ∀ w ∈ ws, w < 2048 then
    let cs := ws.length / 3
    let M := ofDigitsBE 2048 ws
    let e := digitsBE 256 (entropyBytesOfWordCount ws.length) (M / 2 ^ cs)
    if M % 2 ^ cs = checksumVal hash e then .ok e
    else .error .invalidChecksum
  else .error .invalidMnemonic

/-- Modelled from the spec: `cardano_entropy_from_random`.  Accepts only the
legal word counts, failing with `BIP39_INVALID_WORD_COUNT` otherwise; on
success pulls the matching number of entropy bytes from the injected
random generator. -/
def entropyFromRandom (W : Nat) (rng : Nat → Nat) :
    Except Bip39Error (List Nat) :=
  if W ∈ legalWordCounts then
    .ok ((List.range (entropyBytesOfWordCount W)).map (fun i => rng i % 256))
  else .error .invalidWordCount

theorem mul_pow_add_div (N c p : Nat) (h : c < p) : (N * p + c) / p = N := by
  rw [Nat.mul_comm, Nat.mul_add_div (by omega)]
  simp [Nat.div_eq_of_lt h]

theorem mul_pow_add_mod (N c p : Nat) (h : c < p) : (N * p + c) % p = c := by
  rw [Nat.mul_comm, Nat.mul_add_mod]
  exact Nat.mod_eq_of_lt h

theorem roundtrip_core (hash : List Nat → Nat) (e : List Nat)
    (h2 : ∀ b ∈ e, b < 256)
    (hW : wordCountOfEntropy e.length ∈ legalWordCounts)
    (hcs : wordCountOfEntropy e.length / 3 = e.length / 4)
    (hL : entropyBytesOfWordCount (wordCountOfEntropy e.length) = e.length)
    (hbits : 11 * wordCountOfEntropy e.length = 8 * e.length + e.length / 4) :
    entropyFromMnemonic hash (mnemonicFromEntropy hash e) = .ok e := by
  set L := e.length with hLdef
  set W := wordCountOfEntropy L with hWdef
  set cs := L / 4 with hcsdef
  set N := ofDigitsBE 256 e with hNdef
  set c := checksumVal hash e with hcdef
  set M := N * 2 ^ cs + c with hMdef
  have hws_len : (mnemonicFromEntropy hash e).length = W := by
    rw [mnemonicFromEntropy, digitsBE_length]
  have hws_lt : ∀ w ∈ mnemonicFromEntropy hash e, w < 2048 := by
    rw [mnemonicFromEntropy]
    exact digitsBE_lt 2048 _ _ (by norm_num)
  have hclt : c < 2 ^ cs := by
    rw [hcdef, checksumVal]
    exact Nat.mod_lt _ (Nat.pos_pow_of_pos _ (by norm_num))
  have hNlt : N < 2 ^ (8 * L) := by
    have h256 : (256 : Nat) ^ L = 2 ^ (8 * L) := by
      rw [show (256 : Nat) = 2 ^ 8 from rfl, ← pow_mul]
    exact lt_of_lt_of_eq (ofDigitsBE_lt 256 e h2) h256
  have hMlt : M < 2048 ^ W := by
    have h2048 : (2048 : Nat) ^ W = 2 ^ (8 * L + cs) := by
      rw [show (2048 : Nat) = 2 ^ 11 from rfl, ← pow_mul, hbits]
    rw [h2048, pow_add]
    calc M < (N + 1) * 2 ^ cs := by rw [hMdef, Nat.add_mul, Nat.one_mul]; omega
      _ ≤ 2 ^ (8 * L) * 2 ^ cs :=
        Nat.mul_le_mul_right _ (by omega)
  have hM : ofDigitsBE 2048 (mnemonicFromEntropy hash e) = M := by
    rw [mnemonicFromEntropy, ofDigitsBE_digitsBE]
    exact Nat.mod_eq_of_lt hMlt
  have hdiv : M / 2 ^ cs = N := mul_pow_add_div N c _ hclt
  have hmod : M % 2 ^ cs = c := mul_pow_add_mod N c _ hclt
  have hdec : digitsBE 256 (entropyBytesOfWordCount W) (M / 2 ^ cs) = e := by
    rw [hL, hdiv]
    exact digitsBE_ofDigitsBE 256 (by norm_num) e h2
  rw [entropyFromMnemonic, if_pos ⟨by rw [hws_len]; exact hW, hws_lt⟩]
  simp only [hws_len, hcs, hM, hdec, hmod, hcdef]
  simp

/-- C2: for every legal entropy byte sequence `e` of length 16, 20, 24, 28
or 32, decoding the mnemonic produced by encoding `e` returns `e`
unchanged: `entropy_from_mnemonic (mnemonic_from_entropy e) = ok e`, for
any choice of the checksum hash. -/
theorem mnemonic_entropy_roundtrip (hash : List Nat → Nat) (e : List Nat)
    (h1 : e.length ∈ legalEntropySizes) (h2 : ∀ b ∈ e, b < 256) :
    entropyFromMnemonic hash (mnemonicFromEntropy hash e) = .ok e := by
  have h1' : e.length = 16 ∨ e.length = 20 ∨ e.length = 24 ∨
      e.length = 28 ∨ e.length = 32 := by
    simpa [legalEntropySizes] using h1
  rcases h1' with h | h | h | h | h <;>
    exact roundtrip_core hash e h2 (by rw [h]; decide) (by rw [h]; decide)
      (by rw [h]; decide) (by rw [h]; decide)

/-- Witness for C2 at the concrete entropy of 16 zero bytes. -/
theorem mnemonic_entropy_roundtrip_witness :
    (List.replicate 16 0).length ∈ legalEntropySizes ∧
    entropyFromMnemonic (fun _ => 0)
      (mnemonicFromEntropy (fun _ => 0) (List.replicate 16 0)) =
      .ok (List.replicate 16 0) :=
  ⟨by decide,
   mnemonic_entropy_roundtrip (fun _ => 0) (List.replicate 16 0)
     (by decide) (by decide)⟩

/-- C6: `entropy_from_random` succeeds exactly for the legal word counts
12, 15, 18, 21, 24 together with the explicitly supported legacy alias 9,
and fails with `BIP39_INVALID_WORD_COUNT` for every other count. -/
theorem entropy_from_random_word_counts (W : Nat) (rng : Nat → Nat) :
    ((∃ e, entropyFromRandom W rng = .ok e) ↔ W ∈ legalWordCounts) ∧
    (W ∉ legalWordCounts →
      entropyFromRandom W rng = .error .invalidWordCount) := by
  by_cases h : W ∈ legalWordCounts <;> simp [entropyFromRandom, h]

/-- Witness for C6 at the illegal word count 13 and the legal count 12. -/
theorem entropy_from_random_word_counts_witness :
    entropyFromRandom 13 (fun _ => 0) = .error .invalidWordCount ∧
    (∃ e, entropyFromRandom 12 (fun _ => 0) = .ok e) :=
  ⟨(entropy_from_random_word_counts 13 (fun _ => 0)).2 (by decide),
   (entropy_from_random_word_counts 12 (fun _ => 0)).1.mpr (by decide)⟩

/-! ### Extended keys -/

/-- Error for key byte decoding (spec: `InvalidKeyEncoding`). -/
inductive KeyError where
  | invalidKeyEncoding
  deriving DecidableEq, Repr

/-- HDWallet extended private key (`cardano_xprv`): an extended secret key
of 64 bytes followed by a 32-byte chain code (header, `XPRV_SIZE 96`). -/
structure Xprv where
  keyMaterial : List Nat
  chainCode : List Nat
  keyMaterial_length : keyMaterial.length = 64
  chainCode_length : chainCode.length = 32

/-- Size in bytes of a serialized `Xprv` (`XPRV_SIZE`). -/
def XPRV_SIZE : Nat := 96

/-- Modelled from the spec: `cardano_xprv_to_bytes` serializes an `Xprv` as
the 64 key-material bytes followed by the 32 chain-code bytes. -/
def xprvToBytes (x : Xprv) : List Nat := x.keyMaterial ++ x.chainCode

/-- Modelled from the spec: `cardano_xprv_from_bytes` accepts exactly
`XPRV_SIZE = 96` bytes, splitting them into key material and chain code,
and fails with `InvalidKeyEncoding` on any other length. -/
def xprvFromBytes (bs : List Nat) : Except KeyError Xprv :=
  if h : bs.length = XPRV_SIZE then
    .ok ⟨bs.take 64, bs.drop 64,
      by simp [List.length_take, h, XPRV_SIZE],
      by simp [List.length_drop, h, XPRV_SIZE]⟩
  else .error .invalidKeyEncoding

/-- C8: serializing an `Xprv` yields exactly 96 bytes, laid out as the
64-byte key material followed by the 32-byte chain code, and deserializing
any buffer whose length is not 96 fails with `InvalidKeyEncoding`. -/
theorem xprv_bytes_spec (x : Xprv) (bs : List Nat) :
    (xprvToBytes x).length = XPRV_SIZE ∧
    xprvToBytes x = x.keyMaterial ++ x.chainCode ∧
    (bs.length ≠ XPRV_SIZE → xprvFromBytes bs = .error .invalidKeyEncoding) := by
  refine ⟨?_, rfl, ?_⟩
  · rw [xprvToBytes, List.length_append, x.keyMaterial_length,
      x.chainCode_length]
    rfl
  · intro h
    rw [xprvFromBytes, dif_neg h]

/-- Witness for C8 at a concrete key and a 95-byte buffer. -/
theorem xprv_bytes_spec_witness :
    (xprvToBytes ⟨List.replicate 64 0, List.replicate 32 0,
        by simp, by simp⟩).length = XPRV_SIZE ∧
    xprvFromBytes (List.replicate 95 0) = .error .invalidKeyEncoding :=
  ⟨(xprv_bytes_spec _ []).1,
   (xprv_bytes_spec ⟨List.replicate 64 0, List.replicate 32 0,
       by simp, by simp⟩ (List.replicate 95 0)).2.2 (by decide)⟩

/-! ### Addresses -/

/-- Modelled from the spec: an address carries an opaque protocol-specific
byte payload plus the network/protocol discriminator. -/
structure Address where
  network : Nat
  payload : List Nat
  deriving DecidableEq, Repr

/-- Modelled from the spec: the byte form of an address, from which the
external base58 codec produces the text form. -/
def serializeAddress (a : Address) : List Nat := a.network :: a.payload

/-- Modelled from the spec: parsing the byte form of an address back. -/
def parseAddress : List Nat → Option Address
  | [] => none
  | n :: p => some ⟨n, p⟩

/-- Modelled from the spec: `cardano_address_export_base58`; base58 is an
external collaborator, so the encoder enters as the parameter `encode`. -/
def addressExportBase58 (encode : List Nat → String) (a : Address) : String :=
  encode (serializeAddress a)

/-- Modelled from the spec: `cardano_address_import_base58`; base58 is an
external collaborator, so the decoder enters as the parameter `decode`. -/
def addressImportBase58 (decode : String → Option (List Nat))
    (s : String) : Option Address :=
  (decode s).bind parseAddress

/-- Modelled from the spec: `cardano_address_new_from_pubkey` is a pure,
deterministic function of the public-key bytes and the protocol
discriminator; the payload derivation (a hash in the implementation,
absent from src/) enters as the parameter `payloadOf`. -/
def addressNewFromPubkey (payloadOf : List Nat → List Nat)
    (network : Nat) (xpub : List Nat) : Address :=
  ⟨network, payloadOf xpub⟩

/-- C7: importing the base58 text produced by exporting an address returns
the address unchanged, whenever the external base58 codec round-trips on
the address's byte form; in particular this covers every address built by
`address_from_pubkey`. -/
theorem address_import_export_roundtrip (encode : List Nat → String)
    (decode : String → Option (List Nat)) (a : Address)
    (hcodec : decode (encode (serializeAddress a)) = some (serializeAddress a)) :
    addressImportBase58 decode (addressExportBase58 encode a) = some a := by
  rw [addressExportBase58, addressImportBase58, hcodec, serializeAddress]
  rfl

/-- Witness for C7 at a concrete codec and an address built from a pubkey. -/
theorem address_import_export_roundtrip_witness :
    addressImportBase58 (fun s => some (s.data.map Char.toNat))
      (addressExportBase58 (fun bs => String.mk (bs.map Char.ofNat))
        (addressNewFromPubkey (fun x => x) 1 [7, 7, 7])) =
      some (addressNewFromPubkey (fun x => x) 1 [7, 7, 7]) :=
  address_import_export_roundtrip _ _ _ (by decide)

/-! ### Wallet / account address generation -/

/-- BIP44 chain selector: external (receive) chain or internal (change)
chain. -/
inductive Chain where
  | external
  | internal
  deriving DecidableEq, Repr

/-- Modelled from the spec: BIP44 key and address derivation is absent from
src/; an account is modelled by its deterministic address-derivation
function over (chain, address index), producing base58 strings. -/
structure Account where
  derive : Chain → Nat → String

/-- Modelled from the spec: `cardano_account_generate_addresses`; per the
header, a nonzero `internal` argument selects the external chain and zero
the internal one; `num_indices` consecutive addresses starting at
`from_index` are derived and their number is returned. -/
def generateAddresses (account : Account) (internal : Int)
    (fromIndex : Nat) (numIndices : Nat) : List String × Nat :=
  let chain := if internal ≠ 0 then Chain.external else Chain.internal
  let addrs :=
    (List.range numIndices).map (fun k => account.derive chain (fromIndex + k))
  (addrs, addrs.length)

/-- C10: `generate_addresses` derives exactly `numIndices` consecutive
addresses starting at `fromIndex` along the chain selected by the
`internal` flag (nonzero picks the external chain, zero the internal one)
and returns the number of generated addresses. -/
theorem generate_addresses_spec (account : Account) (internal : Int)
    (fromIndex numIndices : Nat) :
    (generateAddresses account internal fromIndex numIndices).2 = numIndices ∧
    (generateAddresses account internal fromIndex numIndices).1.length =
      numIndices ∧
    ∀ k, k < numIndices →
      (generateAddresses account internal fromIndex numIndices).1[k]? =
        some (account.derive
          (if internal ≠ 0 then Chain.external else Chain.internal)
          (fromIndex + k)) := by
  refine ⟨by simp [generateAddresses], by simp [generateAddresses], ?_⟩
  intro k hk
  simp [generateAddresses, List.getElem?_map, List.getElem?_range, hk]

/-- Witness for C10 at a concrete account, `internal = 1`, two indices. -/
theorem generate_addresses_spec_witness :
    (0 : Nat) < 2 ∧
    (generateAddresses
        ⟨fun c i => String.mk (List.replicate i
          (if c = Chain.external then 'e' else 'i'))⟩ 1 5 2).1[0]? =
      some ((Account.mk (fun c i => String.mk (List.replicate i
          (if c = Chain.external then 'e' else 'i')))).derive
        (if (1 : Int) ≠ 0 then Chain.external else Chain.internal) (5 + 0)) :=
  ⟨by decide,
   (generate_addresses_spec
      ⟨fun c i => String.mk (List.replicate i
        (if c = Chain.external then 'e' else 'i'))⟩ 1 5 2).2.2 0 (by decide)⟩

/-! ### Transaction builder -/

/-- Pointer to a previous transaction output (`cardano_txoptr`): the 32-byte
transaction id and the output index. -/
structure TxOptr where
  txid : List Nat
  index : Nat
  deriving DecidableEq, Repr

/-- A transaction output (`cardano_txoutput`): an address and a value. -/
structure TxOutput where
  addr : Address
  value : Nat
  deriving DecidableEq, Repr

/-- Modelled from the spec: the transaction builder accumulates the inputs
(with their caller-asserted values) and the outputs, both in the order the
caller supplied them. -/
structure TransactionBuilder where
  inputs : List (TxOptr × Nat)
  outputs : List TxOutput
  deriving DecidableEq, Repr

/-- Modelled from the spec: the linear fee model's protocol constants
(base overhead, per-input cost, per-output cost), supplied as
configuration. -/
structure FeeConfig where
  base : Nat
  perInput : Nat
  perOutput : Nat
  deriving DecidableEq, Repr

/-- Sum of the values of the builder's inputs. -/
def sumInputs (b : TransactionBuilder) : Nat := (b.inputs.map Prod.snd).sum

/-- Sum of the values of the builder's outputs. -/
def sumOutputs (b : TransactionBuilder) : Nat :=
  (b.outputs.map TxOutput.value).sum

/-- The linear fee at given input and output counts. -/
def feeOf (cfg : FeeConfig) (nIn nOut : Nat) : Nat :=
  cfg.base + cfg.perInput * nIn + cfg.perOutput * nOut

/-- Modelled from the spec: `cardano_transaction_builder_fee` computes
the fee with a linear algorithm, charging the base overhead and then the
per-input and per-output costs over the accumulated lists. -/
def builderFee (cfg : FeeConfig) (b : TransactionBuilder) : Nat :=
  b.outputs.foldl (fun acc _ => acc + cfg.perOutput)
    (b.inputs.foldl (fun acc _ => acc + cfg.perInput) cfg.base)

theorem foldl_const_add {α : Type} (l : List α) (c init : Nat) :
    l.foldl (fun a _ => a + c) init = init + c * l.length := by
  induction l generalizing init with
  | nil => simp
  | cons x xs ih => rw [List.foldl_cons, ih, List.length_cons]; ring

inductive BuilderError where
  | insufficientFunds
  deriving DecidableEq, Repr

/-- Modelled from the spec:
`cardano_transaction_builder_add_change_addr` computes the leftover
`sum(inputs) - sum(outputs) - fee-with-the-change-output`; a negative
leftover is a failure, a zero leftover succeeds without adding anything
(already balanced), and a positive leftover is paid to the change address
as one appended output. -/
def addChangeAddr (cfg : FeeConfig) (b : TransactionBuilder)
    (changeAddr : Address) : Except BuilderError TransactionBuilder :=
  let leftover : Int := (sumInputs b : Int) - (sumOutputs b : Int) -
    (feeOf cfg b.inputs.length (b.outputs.length + 1) : Int)
  if leftover < 0 then .error .insufficientFunds
  else if leftover = 0 then .ok b
  else .ok { b with outputs := b.outputs ++ [⟨changeAddr, leftover.toNat⟩] }

/-- C5: the builder fee is exactly
`base + perInput · num_inputs + perOutput · num_outputs`, and it is a pure
function of the accumulated counts: any builder with the same counts gets
the same fee. -/
theorem builder_fee_linear (cfg : FeeConfig) (b : TransactionBuilder) :
    builderFee cfg b = cfg.base + cfg.perInput * b.inputs.length +
      cfg.perOutput * b.outputs.length ∧
    ∀ b' : TransactionBuilder, b'.inputs.length = b.inputs.length →
      b'.outputs.length = b.outputs.length →
      builderFee cfg b' = builderFee cfg b := by
  have key : ∀ b0 : TransactionBuilder, builderFee cfg b0 =
      cfg.base + cfg.perInput * b0.inputs.length +
        cfg.perOutput * b0.outputs.length := by
    intro b0
    rw [builderFee, foldl_const_add, foldl_const_add]
  exact ⟨key b, fun b' h1 h2 => by rw [key b', key b, h1, h2]⟩

/-- Witness for C5 at concrete constants and builders of equal shape. -/
theorem builder_fee_linear_witness :
    builderFee ⟨10, 2, 3⟩
        ⟨[(⟨[1], 0⟩, 50)], [⟨⟨0, [2]⟩, 7⟩]⟩ = 10 + 2 * 1 + 3 * 1 ∧
    builderFee ⟨10, 2, 3⟩ ⟨[(⟨[9], 4⟩, 8)], [⟨⟨1, [5]⟩, 99⟩]⟩ =
      builderFee ⟨10, 2, 3⟩ ⟨[(⟨[1], 0⟩, 50)], [⟨⟨0, [2]⟩, 7⟩]⟩ :=
  ⟨(builder_fee_linear ⟨10, 2, 3⟩ ⟨[(⟨[1], 0⟩, 50)], [⟨⟨0, [2]⟩, 7⟩]⟩).1,
   (builder_fee_linear ⟨10, 2, 3⟩ ⟨[(⟨[1], 0⟩, 50)], [⟨⟨0, [2]⟩, 7⟩]⟩).2
     ⟨[(⟨[9], 4⟩, 8)], [⟨⟨1, [5]⟩, 99⟩]⟩ (by decide) (by decide)⟩

/-- C4: `add_change_addr` fails with the insufficient-funds status exactly
when the leftover (computed with the fee of the would-be change output) is
negative, succeeds without touching the builder when it is zero, and
otherwise appends exactly one output paying the leftover to the change
address. -/
theorem add_change_cases (cfg : FeeConfig) (b : TransactionBuilder)
    (changeAddr : Address) :
    ((sumInputs b : Int) - (sumOutputs b : Int) -
        (feeOf cfg b.inputs.length (b.outputs.length + 1) : Int) < 0 →
      addChangeAddr cfg b changeAddr = .error .insufficientFunds) ∧
    ((sumInputs b : Int) - (sumOutputs b : Int) -
        (feeOf cfg b.inputs.length (b.outputs.length + 1) : Int) = 0 →
      addChangeAddr cfg b changeAddr = .ok b) ∧
    (∀ l : Int, (sumInputs b : Int) - (sumOutputs b : Int) -
        (feeOf cfg b.inputs.length (b.outputs.length + 1) : Int) = l →
      0 < l →
      addChangeAddr cfg b changeAddr =
        .ok { b with outputs := b.outputs ++ [⟨changeAddr, l.toNat⟩] }) := by
  refine ⟨fun h => ?_, fun h => ?_, fun l hl hpos => ?_⟩
  · rw [addChangeAddr, if_pos h]
  · rw [addChangeAddr, if_neg (by omega), if_pos h]
  · rw [addChangeAddr, if_neg (by omega), if_neg (by omega), hl]

/-- Witness for C4: inputs summing to 100 against outputs summing to 150
fail with the insufficient-funds error. -/
theorem add_change_cases_witness :
    addChangeAddr ⟨0, 0, 0⟩ ⟨[(⟨[1], 0⟩, 100)], [⟨⟨0, []⟩, 150⟩]⟩
        ⟨0, [3]⟩ = .error .insufficientFunds :=
  (add_change_cases ⟨0, 0, 0⟩ ⟨[(⟨[1], 0⟩, 100)], [⟨⟨0, []⟩, 150⟩]⟩
    ⟨0, [3]⟩).1 (by decide)

/-- C1: whenever `add_change_addr` succeeds, the resulting builder's input
values sum to its output values (change included) plus the fee computed
with the change output counted. -/
theorem add_change_balances (cfg : FeeConfig) (b : TransactionBuilder)
    (changeAddr : Address) (b' : TransactionBuilder)
    (h : addChangeAddr cfg b changeAddr = .ok b') :
    sumInputs b' = sumOutputs b' +
      feeOf cfg b.inputs.length (b.outputs.length + 1) := by
  rw [addChangeAddr] at h
  split at h
  · exact absurd h (by simp)
  · split at h
    · cases h
      rename_i hlt heq
      omega
    · cases h
      rename_i hlt heq
      have h1 : sumInputs { b with
          outputs := b.outputs ++ [⟨changeAddr, ((sumInputs b : Int) -
            (sumOutputs b : Int) - (feeOf cfg b.inputs.length
              (b.outputs.length + 1) : Int)).toNat⟩] } = sumInputs b := rfl
      have h2 : sumOutputs { b with
          outputs := b.outputs ++ [⟨changeAddr, ((sumInputs b : Int) -
            (sumOutputs b : Int) - (feeOf cfg b.inputs.length
              (b.outputs.length + 1) : Int)).toNat⟩] } =
          sumOutputs b + ((sumInputs b : Int) - (sumOutputs b : Int) -
            (feeOf cfg b.inputs.length (b.outputs.length + 1) : Int)).toNat := by
        simp [sumOutputs]
      rw [h1, h2]
      omega

/-- Witness for C1 at a concrete builder where change is actually added. -/
theorem add_change_balances_witness :
    addChangeAddr ⟨10, 2, 3⟩ ⟨[(⟨[1], 0⟩, 100)], [⟨⟨0, [2]⟩, 30⟩]⟩
        ⟨0, [4]⟩ =
      .ok ⟨[(⟨[1], 0⟩, 100)], [⟨⟨0, [2]⟩, 30⟩, ⟨⟨0, [4]⟩, 52⟩]⟩ ∧
    sumInputs ⟨[(⟨[1], 0⟩, 100)], [⟨⟨0, [2]⟩, 30⟩, ⟨⟨0, [4]⟩, 52⟩]⟩ =
      sumOutputs ⟨[(⟨[1], 0⟩, 100)], [⟨⟨0, [2]⟩, 30⟩, ⟨⟨0, [4]⟩, 52⟩]⟩ +
        feeOf ⟨10, 2, 3⟩ 1 2 :=
  ⟨by decide,
   add_change_balances ⟨10, 2, 3⟩ ⟨[(⟨[1], 0⟩, 100)], [⟨⟨0, [2]⟩, 30⟩]⟩
     ⟨0, [4]⟩ ⟨[(⟨[1], 0⟩, 100)], [⟨⟨0, [2]⟩, 30⟩, ⟨⟨0, [4]⟩, 52⟩]⟩
     (by decide)⟩

/-! ### Transaction finalizer and witness signer -/

/-- The finalized, immutable transaction to be witnessed. -/
structure Transaction where
  inputs : List TxOptr
  outputs : List TxOutput
  deriving DecidableEq, Repr

/-- Modelled from the spec: the signing message is a domain-separated
digest of `(protocol_magic, txid)`; the digest function is absent from
src/, so the message is modelled injectively by the pair itself. -/
structure SigningMessage where
  magic : Nat
  txid : List Nat
  deriving DecidableEq, Repr

/-- The message signed for a witness. -/
def signingMessage (magic : Nat) (txid : List Nat) : SigningMessage :=
  ⟨magic, txid⟩

/-- Modelled from the spec: ed25519 signing is an external primitive; a
witness is modelled as the record of the signing key and the signed
message. -/
structure TxWitness where
  key : List Nat
  message : SigningMessage
  deriving DecidableEq, Repr

/-- The witness produced by signing `msg` with the extended private key. -/
def sign (xprv : List Nat) (msg : SigningMessage) : TxWitness := ⟨xprv, msg⟩

/-- Working area for adding witnesses
(`cardano_transaction_finalized`). -/
structure TransactionFinalized where
  tx : Transaction
  witnesses : List TxWitness
  deriving DecidableEq, Repr

/-- A transaction together with its ordered witnesses
(`cardano_signed_transaction`). -/
structure SignedTransaction where
  tx : Transaction
  witnesses : List TxWitness
  deriving DecidableEq, Repr

inductive TxError where
  | tooManyWitnesses
  | incompleteWitnesses
  deriving DecidableEq, Repr

/-- `cardano_transaction_finalized_new`: wraps a transaction with an
initially empty witness list. -/
def finalizedNew (tx : Transaction) : TransactionFinalized := ⟨tx, []⟩

/-- Modelled from the spec:
`cardano_transaction_finalized_add_witness` signs the domain-separated
digest of `(protocol_magic, txid)` with the given key and appends the
witness, which is associated with the next input in order; the witness
list never outgrows the input count. -/
def addWitness (tf : TransactionFinalized) (xprv : List Nat)
    (magic : Nat) (txid : List Nat) : Except TxError TransactionFinalized :=
  if tf.witnesses.length < tf.tx.inputs.length then
    .ok ⟨tf.tx, tf.witnesses ++ [sign xprv (signingMessage magic txid)]⟩
  else .error .tooManyWitnesses

/-- Repeated `add_witness`, one call per key, in the given order. -/
def addWitnessList (tf : TransactionFinalized) (keys : List (List Nat))
    (magic : Nat) (txid : List Nat) : Except TxError TransactionFinalized :=
  keys.foldlM (fun acc k => addWitness acc k magic txid) tf

/-- Modelled from the spec: `cardano_transaction_finalized_output` yields
the signed transaction once the witness count equals the input count and
fails with the incomplete-witnesses status otherwise. -/
def finalizedOutput (tf : TransactionFinalized) :
    Except TxError SignedTransaction :=
  if tf.witnesses.length = tf.tx.inputs.length then .ok ⟨tf.tx, tf.witnesses⟩
  else .error .incompleteWitnesses

theorem except_ok_bind {ε α β : Type} (x : α) (f : α → Except ε β) :
    (Except.ok x >>= f) = f x := rfl

theorem addWitnessList_ok (magic : Nat) (txid : List Nat)
    (keys : List (List Nat)) :
    ∀ tf : TransactionFinalized,
      tf.witnesses.length + keys.length ≤ tf.tx.inputs.length →
      addWitnessList tf keys magic txid =
        .ok ⟨tf.tx, tf.witnesses ++
          keys.map (fun k => sign k (signingMessage magic txid))⟩ := by
  induction keys with
  | nil =>
    intro tf h
    simp only [addWitnessList, List.foldlM_nil, List.map_nil, List.append_nil]
    rfl
  | cons k ks ih =>
    intro tf h
    have hlt : tf.witnesses.length < tf.tx.inputs.length := by
      simp [List.length_cons] at h; omega
    rw [addWitnessList, List.foldlM_cons, addWitness, if_pos hlt,
      except_ok_bind]
    have step := ih ⟨tf.tx, tf.witnesses ++ [sign k (signingMessage magic txid)]⟩
      (by simp [List.length_append] at h ⊢; omega)
    rw [addWitnessList] at step
    rw [step]
    simp [List.append_assoc]

/-- C3: adding one witness per input, in input order, with keys
`keys`, yields a signed transaction whose witness at position `i` is the
signature with the `i`-th key over the domain-separated digest of
`(protocol_magic, txid)`, for every position `i`. -/
theorem witness_ordering (tx : Transaction) (keys : List (List Nat))
    (magic : Nat) (txid : List Nat) (h : keys.length = tx.inputs.length) :
    ∃ st : SignedTransaction,
      (addWitnessList (finalizedNew tx) keys magic txid).bind
        finalizedOutput = .ok st ∧
      st.tx = tx ∧
      st.witnesses = keys.map (fun k => sign k (signingMessage magic txid)) ∧
      ∀ i (hi : i < keys.length) (hw : i < st.witnesses.length),
        st.witnesses.get ⟨i, hw⟩ =
          sign (keys.get ⟨i, hi⟩) (signingMessage magic txid) := by
  refine ⟨⟨tx, keys.map (fun k => sign k (signingMessage magic txid))⟩,
    ?_, rfl, rfl, ?_⟩
  · rw [addWitnessList_ok magic txid keys (finalizedNew tx)
      (by simp [finalizedNew, h])]
    simp only [finalizedNew, List.nil_append, Except.bind]
    rw [finalizedOutput, if_pos (by simp [h])]
  · intro i hi hw
    simp [List.get_eq_getElem, List.getElem_map]

/-- Witness for C3 at a concrete two-input transaction. -/
theorem witness_ordering_witness :
    (([[5], [6]] : List (List Nat)).length =
      (Transaction.mk [⟨[1], 0⟩, ⟨[2], 1⟩] []).inputs.length) ∧
    ∃ st : SignedTransaction,
      (addWitnessList (finalizedNew ⟨[⟨[1], 0⟩, ⟨[2], 1⟩], []⟩)
        [[5], [6]] 7 [9]).bind finalizedOutput = .ok st ∧
      st.tx = ⟨[⟨[1], 0⟩, ⟨[2], 1⟩], []⟩ ∧
      st.witnesses = ([[5], [6]] : List (List Nat)).map
        (fun k => sign k (signingMessage 7 [9])) ∧
      ∀ i (hi : i < ([[5], [6]] : List (List Nat)).length)
        (hw : i < st.witnesses.length),
        st.witnesses.get ⟨i, hw⟩ =
          sign (([[5], [6]] : List (List Nat)).get ⟨i, hi⟩)
            (signingMessage 7 [9]) :=
  ⟨by decide,
   witness_ordering ⟨[⟨[1], 0⟩, ⟨[2], 1⟩], []⟩ [[5], [6]] 7 [9] (by decide)⟩

/-- C9: `finalized_output` yields a signed transaction exactly when the
witness count equals the input count, and otherwise fails with the
incomplete-witnesses status (the failing behaviour of the implementer's
choice, applied consistently). -/
theorem finalized_output_spec (tf : TransactionFinalized) :
    ((∃ st, finalizedOutput tf = .ok st) ↔
      tf.witnesses.length = tf.tx.inputs.length) ∧
    (tf.witnesses.length ≠ tf.tx.inputs.length →
      finalizedOutput tf = .error .incompleteWitnesses) := by
  by_cases h : tf.witnesses.length = tf.tx.inputs.length <;>
    simp [finalizedOutput, h]

/-- Witness for C9 at a one-input transaction with no witnesses yet. -/
theorem finalized_output_spec_witness :
    finalizedOutput ⟨⟨[⟨[1], 0⟩], []⟩, []⟩ =
      .error .incompleteWitnesses :=
  (finalized_output_spec ⟨⟨[⟨[1], 0⟩], []⟩, []⟩).2 (by decide)

end Cardano
